import Mathlib

/-!
Verification of the instant-mcp server core: the command registry
(`registry.go`), the batch coordinator and executor (`handle_batch.go`),
and the tool dispatcher (`tools.go`), shallowly embedded in Lean.

Go maps (`map[string]V`) are modelled as association lists
`List (String × V)` whose operations mirror Go map assignment, deletion
and lookup; `maps.Copy` into a fresh map is modelled by `mapsCopy`.
Go map iteration order is unspecified; the embedding iterates in list
order, and every order-sensitive statement proved below is phrased so
that it is insensitive to that choice or quantified over lookups only.
-/

/-- Lookup in an association-list map: first entry with the given key. -/
def lookupMap {α : Type} (m : List (String × α)) (k : String) : Option α :=
  match m with
  | [] => none
  | (k', v) :: rest => if k' = k then some v else lookupMap rest k

/-- Go map assignment `m[k] = v`: replace the entry for `k` when present,
otherwise add a new entry. -/
def insertMap {α : Type} (m : List (String × α)) (k : String) (v : α) :
    List (String × α) :=
  match m with
  | [] => [(k, v)]
  | (k', v') :: rest =>
    if k' = k then (k, v) :: rest else (k', v') :: insertMap rest k v

/-- Go map deletion `delete(m, k)`: drop every entry with the given key. -/
def eraseMap {α : Type} (m : List (String × α)) (k : String) :
    List (String × α) :=
  match m with
  | [] => []
  | (k', v') :: rest =>
    if k' = k then eraseMap rest k else (k', v') :: eraseMap rest k

/-- Model of `maps.Copy(dst, src)`: assign every entry of `src` into `dst`. -/
def mapsCopy {α : Type} (dst src : List (String × α)) : List (String × α) :=
  src.foldl (fun acc kv => insertMap acc kv.1 kv.2) dst

/-- A map has no duplicate keys (always true of a real Go map). -/
def NodupKeys {α : Type} (m : List (String × α)) : Prop :=
  (m.map Prod.fst).Nodup

instance {α : Type} (m : List (String × α)) : Decidable (NodupKeys m) := by
  unfold NodupKeys; infer_instance

@[simp] theorem lookupMap_nil {α : Type} (k : String) :
    lookupMap ([] : List (String × α)) k = none := rfl

@[simp] theorem lookupMap_cons {α : Type} (k' : String) (v : α) (rest) (k) :
    lookupMap ((k', v) :: rest) k =
      if k' = k then some v else lookupMap rest k := rfl

theorem lookupMap_insertMap {α : Type} (m : List (String × α)) (a k : String)
    (v : α) :
    lookupMap (insertMap m a v) k = if a = k then some v else lookupMap m k := by
  induction m with
  | nil =>
    simp only [insertMap, lookupMap_cons, lookupMap_nil]
  | cons hd tl ih =>
    obtain ⟨k', v'⟩ := hd
    simp only [insertMap]
    by_cases hka : k' = a
    · simp only [if_pos hka, lookupMap_cons]
      by_cases h : a = k
      · have h2 : k' = k := hka.trans h
        simp [h, h2]
      · have h2 : ¬ k' = k := fun hc => h (hka ▸ hc)
        simp [h, h2]
    · simp only [if_neg hka, lookupMap_cons, ih]
      by_cases h1 : k' = k
      · have hak : ¬ a = k := fun hc => hka (h1.trans hc.symm)
        simp [h1, hak]
      · simp [h1]

theorem lookupMap_eraseMap {α : Type} (m : List (String × α)) (a k : String) :
    lookupMap (eraseMap m a) k = if a = k then none else lookupMap m k := by
  induction m with
  | nil => simp [eraseMap]
  | cons hd tl ih =>
    obtain ⟨k', v'⟩ := hd
    simp only [eraseMap]
    by_cases hka : k' = a
    · simp only [if_pos hka, ih, lookupMap_cons]
      by_cases h : a = k
      · simp [h]
      · have h2 : ¬ k' = k := fun hc => h (hka ▸ hc)
        simp [h, h2]
    · simp only [if_neg hka, lookupMap_cons, ih]
      by_cases h1 : k' = k
      · have hak : ¬ a = k := fun hc => hka (h1.trans hc.symm)
        simp [h1, hak]
      · simp [h1]

theorem mem_insertMap {α : Type} (m : List (String × α)) (a : String) (v : α)
    (kv : String × α) (h : kv ∈ insertMap m a v) : kv ∈ m ∨ kv = (a, v) := by
  induction m with
  | nil =>
    simp only [insertMap] at h
    rcases List.mem_singleton.mp h with h1
    right; exact h1
  | cons hd tl ih =>
    obtain ⟨k', v'⟩ := hd
    simp only [insertMap] at h
    by_cases hka : k' = a
    · rw [if_pos hka] at h
      rcases List.mem_cons.mp h with h1 | h1
      · right; exact h1
      · left; exact List.mem_cons_of_mem _ h1
    · rw [if_neg hka] at h
      rcases List.mem_cons.mp h with h1 | h1
      · left; simp [h1]
      · rcases ih h1 with h2 | h2
        · left; exact List.mem_cons_of_mem _ h2
        · right; exact h2

theorem mem_eraseMap {α : Type} (m : List (String × α)) (a : String)
    (kv : String × α) (h : kv ∈ eraseMap m a) : kv ∈ m := by
  induction m with
  | nil => simp [eraseMap] at h
  | cons hd tl ih =>
    obtain ⟨k', v'⟩ := hd
    simp only [eraseMap] at h
    by_cases hka : k' = a
    · rw [if_pos hka] at h
      exact List.mem_cons_of_mem _ (ih h)
    · rw [if_neg hka] at h
      rcases List.mem_cons.mp h with h1 | h1
      · simp [h1]
      · exact List.mem_cons_of_mem _ (ih h1)

/-! ## Data model (`models/command.go`) -/

/-- Model of `models.Arg`: a command argument specification. -/
structure Arg where
  type : String
  description : String
  required : Bool
deriving DecidableEq, Repr

/-- Model of `models.Command`: a registered command. `Args` is a Go map,
modelled as an association list. -/
structure Command where
  name : String
  exec : String
  args : List (String × Arg)
  description : String
  async : Bool
  timeout : String
deriving DecidableEq, Repr

/-- The registry contents: the `commands map[string]models.Command` field. -/
abbrev Registry := List (String × Command)

/-! ## Validation (`server/registry.go`) -/

/-- Model of the compiled regexp `^[a-zA-Z][a-zA-Z0-9_]*$` used by
`validateCommand` for command names. -/
def validName (s : String) : Bool :=
  match s.data with
  | [] => false
  | c :: rest => c.isAlpha && rest.all (fun d => d.isAlpha || d.isDigit || d == '_')

/-- Model of `validateTimeout`, i.e. the regexp `^\d+[smh]$`: one or more
digits followed by a unit letter. Returns true when the match succeeds. -/
def validTimeoutString (s : String) : Bool :=
  !s.data.dropLast.isEmpty && s.data.dropLast.all Char.isDigit &&
    (s.data.getLastD ' ' == 's' || s.data.getLastD ' ' == 'm' ||
      s.data.getLastD ' ' == 'h')

/-- Validation failures of `validateCommand`, one constructor per distinct
`fmt.Errorf` return site. -/
inductive ValErr where
  | nameRequired
  | nameInvalid (name : String)
  | execRequired (name : String)
  | argTypeMissing (argName name : String)
  | argTypeInvalid (argName name ty : String)
  | timeoutInvalid (name : String)
deriving DecidableEq, Repr

/-- The `validTypes` set of `validateCommand`. -/
def validType (t : String) : Bool :=
  t == "string" || t == "number" || t == "boolean"

/-- The argument-validation loop of `validateCommand` (iterating the `Args`
map; the embedding iterates in list order). -/
def validateArgs (name : String) : List (String × Arg) → Option ValErr
  | [] => none
  | (argName, arg) :: rest =>
    if arg.type = "" then some (.argTypeMissing argName name)
    else if !validType arg.type then some (.argTypeInvalid argName name arg.type)
    else validateArgs name rest

/-- Model of `validateCommand`: `none` means the command is valid. -/
def validateCommand (cmd : Command) : Option ValErr :=
  if cmd.name = "" then some .nameRequired
  else if !validName cmd.name then some (.nameInvalid cmd.name)
  else if cmd.exec = "" then some (.execRequired cmd.name)
  else
    match validateArgs cmd.name cmd.args with
    | some e => some e
    | none =>
      if cmd.timeout ≠ "" then
        if validTimeoutString cmd.timeout then none
        else some (.timeoutInvalid cmd.name)
      else none

/-! ## Registry operations (`server/registry.go`)

Each Go method mutates the receiver and returns an `error`; the embedding
returns the new contents paired with the optional error, and returns the
receiver unchanged on every failure path, exactly as the Go methods do
(they return before touching the map). -/

/-- Errors returned by the registry methods, one constructor per class. -/
inductive RegErr where
  | invalid (e : ValErr)
  | alreadyExists (name : String)
  | notFound (name : String)
deriving DecidableEq, Repr

/-- Model of `Registry.Add`. -/
def Registry.Add (r : Registry) (cmd : Command) : Registry × Option RegErr :=
  match validateCommand cmd with
  | some e => (r, some (.invalid e))
  | none =>
    if (lookupMap r cmd.name).isSome then (r, some (.alreadyExists cmd.name))
    else (insertMap r cmd.name cmd, none)

/-- Model of `Registry.Remove`. -/
def Registry.Remove (r : Registry) (name : String) : Registry × Option RegErr :=
  if (lookupMap r name).isSome then (eraseMap r name, none)
  else (r, some (.notFound name))

/-- Model of `Registry.Get`. -/
def Registry.Get (r : Registry) (name : String) : Except RegErr Command :=
  match lookupMap r name with
  | some cmd => .ok cmd
  | none => .error (.notFound name)

/-- Model of `Registry.Update`. -/
def Registry.Update (r : Registry) (name : String) (cmd : Command) :
    Registry × Option RegErr :=
  match validateCommand cmd with
  | some e => (r, some (.invalid e))
  | none =>
    if (lookupMap r name).isNone then (r, some (.notFound name))
    else
      let r2 := if name ≠ cmd.name then eraseMap r name else r
      (insertMap r2 cmd.name cmd, none)

/-- Model of `Registry.Snapshot`: `maps.Copy` into a fresh map. -/
def Registry.Snapshot (r : Registry) : List (String × Command) :=
  mapsCopy [] r

/-- Model of `Registry.Load`: discard the old contents and `maps.Copy` the
given map into a fresh one. -/
def Registry.Load (commands : List (String × Command)) : Registry :=
  mapsCopy [] commands

/-! ## Lemmas about `mapsCopy` -/

theorem lookupMap_isSome_iff {α : Type} (m : List (String × α)) (k : String) :
    (lookupMap m k).isSome = true ↔ k ∈ m.map Prod.fst := by
  induction m with
  | nil => simp
  | cons hd tl ih =>
    obtain ⟨k', v'⟩ := hd
    by_cases h : k' = k
    · simp [h]
    · simp only [lookupMap_cons, if_neg h, List.map_cons, List.mem_cons, ih]
      constructor
      · intro hx; right; exact hx
      · intro hx
        rcases hx with hx | hx
        · exact absurd hx.symm h
        · exact hx

theorem lookupMap_eq_none_of_not_mem {α : Type} (m : List (String × α))
    (k : String) (h : k ∉ m.map Prod.fst) : lookupMap m k = none := by
  cases hl : lookupMap m k with
  | none => rfl
  | some v =>
    exact absurd ((lookupMap_isSome_iff m k).mp (by simp [hl])) h

theorem lookupMap_mapsCopy {α : Type} (src : List (String × α)) :
    ∀ dst k, NodupKeys src →
      lookupMap (mapsCopy dst src) k =
        Option.or (lookupMap src k) (lookupMap dst k) := by
  induction src with
  | nil => intro dst k _; simp [mapsCopy, Option.or]
  | cons hd tl ih =>
    intro dst k hnd
    obtain ⟨a, v⟩ := hd
    have hnd2 : NodupKeys tl := (List.nodup_cons.mp hnd).2
    have hna : a ∉ tl.map Prod.fst := (List.nodup_cons.mp hnd).1
    have hstep : mapsCopy dst ((a, v) :: tl) = mapsCopy (insertMap dst a v) tl := rfl
    rw [hstep, ih (insertMap dst a v) k hnd2]
    by_cases hak : a = k
    · subst hak
      rw [lookupMap_eq_none_of_not_mem tl a hna]
      simp [Option.or, lookupMap_insertMap]
    · rw [lookupMap_insertMap]
      simp only [lookupMap_cons, if_neg hak]

theorem keys_insertMap {α : Type} (m : List (String × α)) (a : String) (v : α) :
    (insertMap m a v).map Prod.fst =
      if a ∈ m.map Prod.fst then m.map Prod.fst else m.map Prod.fst ++ [a] := by
  induction m with
  | nil => simp [insertMap]
  | cons hd tl ih =>
    obtain ⟨k', v'⟩ := hd
    by_cases h : k' = a
    · simp [insertMap, h]
    · simp only [insertMap, if_neg h, List.map_cons, ih]
      by_cases h2 : a ∈ tl.map Prod.fst
      · have : a ∈ (k', v').fst :: tl.map Prod.fst := List.mem_cons_of_mem _ h2
        simp [h2, this]
      · have hne : ¬ a = k' := fun hc => h hc.symm
        have : a ∉ k' :: tl.map Prod.fst := by
          simp only [List.mem_cons]
          rintro (hc | hc)
          · exact hne hc
          · exact h2 hc
        simp [h2, this]

theorem nodupKeys_insertMap {α : Type} (m : List (String × α)) (a : String)
    (v : α) (h : NodupKeys m) : NodupKeys (insertMap m a v) := by
  unfold NodupKeys at h ⊢
  rw [keys_insertMap]
  by_cases h2 : a ∈ m.map Prod.fst
  · simpa [h2] using h
  · simp only [h2, if_false]
    rw [List.nodup_append]
    refine ⟨h, List.nodup_singleton a, ?_⟩
    intro x hx hxa
    rw [List.mem_singleton] at hxa
    subst hxa
    exact h2 hx

theorem nodupKeys_mapsCopy {α : Type} (src : List (String × α)) :
    ∀ dst, NodupKeys dst → NodupKeys (mapsCopy dst src) := by
  induction src with
  | nil => intro dst h; exact h
  | cons hd tl ih =>
    intro dst h
    exact ih (insertMap dst hd.1 hd.2) (nodupKeys_insertMap dst hd.1 hd.2 h)

theorem lookupMap_snapshot (r : Registry) (k : String) (h : NodupKeys r) :
    lookupMap (Registry.Snapshot r) k = lookupMap r k := by
  unfold Registry.Snapshot
  rw [lookupMap_mapsCopy r [] k h]
  cases lookupMap r k <;> simp [Option.or]

theorem nodupKeys_snapshot (r : Registry) : NodupKeys (Registry.Snapshot r) :=
  nodupKeys_mapsCopy r [] (by simp [NodupKeys])

theorem lookupMap_load_snapshot (r : Registry) (k : String) (h : NodupKeys r) :
    lookupMap (Registry.Load (Registry.Snapshot r)) k = lookupMap r k := by
  unfold Registry.Load
  rw [lookupMap_mapsCopy (Registry.Snapshot r) [] k (nodupKeys_snapshot r),
    lookupMap_snapshot r k h]
  cases lookupMap r k <;> simp [Option.or]

/-! ## IEEE 754 binary64 values

JSON numbers decode to Go `float64`. A finite double is modelled
bit-exactly by sign, mantissa and binary exponent, with magnitude
`mant * 2^exp`; normal values have `2^52 ≤ mant < 2^53`, subnormals and
zero have `exp = -1074` with a smaller mantissa. NaN and the infinities
cannot come out of JSON decoding and are outside the model. All
computations below are exact natural-number arithmetic. -/

/-- A finite IEEE 754 binary64 value. -/
structure F64 where
  neg : Bool
  mant : Nat
  exp : Int
deriving DecidableEq, Repr

/-- The rational 2^e (the semantic interpretation only; the algorithms
below work on scaled integers). -/
def pow2 (e : Int) : Rat :=
  if 0 ≤ e then ((2 ^ e.toNat : Nat) : Rat)
  else 1 / ((2 ^ (-e).toNat : Nat) : Rat)

/-- The exact rational value a finite double denotes. -/
def F64.toRat (x : F64) : Rat :=
  (if x.neg then -1 else 1) * (x.mant : Rat) * pow2 x.exp

/-- Magnitude of the integer part of a double (truncation toward zero). -/
def F64.truncMag (x : F64) : Nat :=
  if 0 ≤ x.exp then x.mant * 2 ^ x.exp.toNat else x.mant / 2 ^ (-x.exp).toNat

/-- Model of the Go conversion `int64(v)`: truncation toward zero. For
values outside the int64 range the result is implementation-defined in
Go; the amd64 behaviour (`CVTTSD2SI` returns minInt64) is modelled, so
the `v == float64(int64(v))` test of `argToString` fails there and such
values take the `FormatFloat` path. -/
def F64.toInt64 (x : F64) : Int :=
  let t : Int := if x.neg then -(x.truncMag : Int) else (x.truncMag : Int)
  if t < -(2 ^ 63) ∨ 2 ^ 63 ≤ t then -(2 ^ 63) else t

/-- Bit length of a natural number (fuelled). -/
def bits (fuel n : Nat) : Nat :=
  match fuel with
  | 0 => 0
  | fuel2 + 1 => if n = 0 then 0 else bits fuel2 (n / 2) + 1

/-- Round a natural number to 53 significant bits, half to even — the
rounding the conversion `float64(int64)` performs. The result is the pair
`(m, k)` denoting `m * 2^k`. -/
def roundTo53 (n : Nat) : Nat × Nat :=
  let b := bits 70 n
  if b ≤ 53 then (n, 0)
  else
    let k := b - 53
    let q := n / 2 ^ k
    let r := n % 2 ^ k
    let half := 2 ^ (k - 1)
    (if half < r ∨ (r = half ∧ q % 2 = 1) then q + 1 else q, k)

/-- Equality of the dyadic magnitudes `m1 * 2^e1` and `m2 * 2^e2`. -/
def dyadicEq (m1 : Nat) (e1 : Int) (m2 : Nat) (e2 : Int) : Bool :=
  if e1 ≤ e2 then m1 == m2 * 2 ^ (e2 - e1).toNat
  else m1 * 2 ^ (e1 - e2).toNat == m2

/-- The test `v == float64(int64(v))` of `argToString`: sign and exact
magnitude of the double against the rounded-back conversion (for the zero
mantissa both sides are zero — IEEE compares `-0 == 0` as true). Under
the modelled conversion semantics the test holds exactly for integral
values inside the int64 range. -/
def F64.intRoundTrips (x : F64) : Bool :=
  if x.mant = 0 then true
  else
    let t := x.toInt64
    let r := roundTo53 t.natAbs
    (x.neg == decide (t < 0)) && dyadicEq x.mant x.exp r.1 (r.2 : Int)

/-! Shortest round-trip rendering, the contract of
`strconv.FormatFloat(v, 'f', -1, 64)`: the decimal with the fewest digits
that parses back to exactly `v`, and among the shortest ones the one
nearest `v`, ties going to the even digit string — the selection the Ryu
algorithm inside `strconv` makes. Computed exactly: the rounding interval
of `v` reaches half an ulp each side (half the previous, smaller gap
below when the mantissa sits at a power-of-two boundary above the
subnormal range), its boundaries count as inside exactly when the
mantissa is even (nearest-even parsing returns `v` for a boundary decimal
then); the coarsest power-of-ten grid meeting the interval fixes the
digit count, and `v` is rounded onto that grid, ties to even, clamped
into the interval. -/

/-- The rounding interval `[loN/den, hiN/den]` around the magnitude
`vN/den` of a nonzero double, scaled to integers. -/
structure RoundIv where
  loN : Nat
  vN : Nat
  hiN : Nat
  den : Nat
deriving DecidableEq, Repr

/-- The rounding interval of the magnitude `mant * 2^exp`. -/
def F64.interval (x : F64) : RoundIv :=
  let bdry := x.mant = 2 ^ 52 ∧ -1074 < x.exp
  if 2 ≤ x.exp then
    let e := (x.exp - 2).toNat
    let gd := if bdry then 2 ^ e else 2 ^ (e + 1)
    ⟨x.mant * 2 ^ (e + 2) - gd, x.mant * 2 ^ (e + 2),
      x.mant * 2 ^ (e + 2) + 2 ^ (e + 1), 1⟩
  else
    let t := (2 - x.exp).toNat
    let gd := if bdry then 1 else 2
    ⟨4 * x.mant - gd, 4 * x.mant, 4 * x.mant + 2, 2 ^ t⟩

/-- Ceiling division. -/
def ceilDiv (a b : Nat) : Nat := (a + b - 1) / b

/-- Smallest grid index inside the interval from below (strictly above
the boundary when boundaries are excluded), at grid step `sN/sD`. -/
def gridLo (iv : RoundIv) (incl : Bool) (sN sD : Nat) : Nat :=
  if incl then ceilDiv (iv.loN * sD) (sN * iv.den)
  else iv.loN * sD / (sN * iv.den) + 1

/-- Largest grid index inside the interval from above, at step `sN/sD`. -/
def gridHi (iv : RoundIv) (incl : Bool) (sN sD : Nat) : Nat :=
  if incl then iv.hiN * sD / (sN * iv.den)
  else ceilDiv (iv.hiN * sD) (sN * iv.den) - 1

/-- Does some multiple of the grid step `sN/sD` lie in the interval? -/
def gridHit (iv : RoundIv) (incl : Bool) (sN sD : Nat) : Bool :=
  gridLo iv incl sN sD ≤ gridHi iv incl sN sD

/-- Round `a / b` to the nearest integer, ties to even. -/
def roundTiesEvenN (a b : Nat) : Nat :=
  let f := a / b
  let r := a % b
  if b < 2 * r then f + 1
  else if 2 * r < b then f
  else if f % 2 = 0 then f else f + 1

/-- Scale search: descend the power-of-ten step `sN/sD` from `10^k` until
the grid meets the interval (the exact binary expansion of the value
guarantees a hit, so the fuel is never exhausted for a double). -/
def shortestScale (iv : RoundIv) (incl : Bool) :
    Nat → Int → Nat → Nat → Int × Nat × Nat
  | 0, k, sN, sD => (k, sN, sD)
  | fuel + 1, k, sN, sD =>
    if gridHit iv incl sN sD then (k, sN, sD)
    else if sN ≤ 1 then shortestScale iv incl fuel (k - 1) 1 (sD * 10)
    else shortestScale iv incl fuel (k - 1) (sN / 10) sD

/-- Starting scale exponent for the search: the magnitude of the upper
interval end (no coarser grid can meet the interval). -/
def startScale (iv : RoundIv) : Nat :=
  let fl := iv.hiN / iv.den
  if fl = 0 then 0 else (Nat.repr fl).length - 1

/-- Fixed-notation rendering of `D * 10^k` (the `'f'` format): digits and
trailing zeros without a decimal point for `k ≥ 0`, otherwise `-k`
zero-padded fraction digits. The grid is coarsest, so `D` never ends in a
zero digit when `k < 0` and no trailing fraction zeros appear. -/
def renderFixed (D : Nat) (k : Int) : String :=
  if 0 ≤ k then Nat.repr D ++ String.mk (List.replicate k.toNat '0')
  else
    let n := (-k).toNat
    let I := D / 10 ^ n
    let F := D % 10 ^ n
    let fs := Nat.repr F
    Nat.repr I ++ "." ++ String.mk (List.replicate (n - fs.length) '0') ++ fs

/-- Shortest round-trip `'f'` rendering of a finite double. -/
def F64.shortest (x : F64) : String :=
  if x.mant = 0 then if x.neg then "-0" else "0"
  else
    let iv := x.interval
    let incl := decide (x.mant % 2 = 0)
    let kp := shortestScale iv incl 1500 (startScale iv : Int)
      (10 ^ startScale iv) 1
    let sN := kp.2.1
    let sD := kp.2.2
    let D := max (gridLo iv incl sN sD)
      (min (gridHi iv incl sN sD) (roundTiesEvenN (iv.vN * sD) (sN * iv.den)))
    (if x.neg then "-" else "") ++ renderFixed D kp.1

/-! ## JSON-ish scalar values

Decoded `map[string]any` parameters; numbers carry the bit-exact double.
Arrays are not needed by any claim. -/

inductive Value where
  | str (s : String)
  | num (x : F64)
  | bool (b : Bool)
  | null
  | obj (kvs : List (String × Value))

/-- Go type assertion `m[k].(string)` with the zero value on failure. -/
def getStr (m : List (String × Value)) (k : String) : String :=
  match lookupMap m k with
  | some (.str s) => s
  | _ => ""

/-- Go type assertion `m[k].(bool)` with the zero value on failure. -/
def getBool (m : List (String × Value)) (k : String) : Bool :=
  match lookupMap m k with
  | some (.bool b) => b
  | _ => false

/-! ## Stringification (`argToString` in `executor.go`) -/

/-- Model of `argToString`. Strings pass through; a number takes the
`FormatInt` path when `v == float64(int64(v))` and the shortest-round-trip
`FormatFloat` path otherwise; booleans render as `true`/`false`; the
`default` case (`fmt.Sprintf`) is a fixed placeholder for objects, on
which no claim depends. -/
def argToString (v : Value) : String :=
  match v with
  | .str s => s
  | .num x =>
    if x.intRoundTrips then toString x.toInt64 else F64.shortest x
  | .bool b => if b then "true" else "false"
  | .null => "<nil>"
  | .obj _ => "map[]"

/-! ## Timeout parsing (`parseTimeout` in `executor.go`) -/

/-- Numeric value of a digit string. -/
def digitsToNat (l : List Char) : Nat :=
  l.foldl (fun a c => a * 10 + (c.toNat - 48)) 0

/-- Digit-string part of `strconv.Atoi`. -/
def atoiDigits (l : List Char) : Option Nat :=
  if l.isEmpty then none
  else if l.all Char.isDigit then some (digitsToNat l) else none

/-- Largest value of the Go `int` type (64-bit). -/
def intMax : Int := 9223372036854775807

/-- Model of `strconv.Atoi`: optional sign, decimal digits, and an error
when the value overflows a signed 64-bit integer. -/
def atoi (l : List Char) : Option Int :=
  match l with
  | [] => none
  | c :: rest =>
    if c = '+' then
      match atoiDigits rest with
      | some n => if (n : Int) ≤ intMax then some (n : Int) else none
      | none => none
    else if c = '-' then
      match atoiDigits rest with
      | some n => if (n : Int) ≤ intMax + 1 then some (-(n : Int)) else none
      | none => none
    else
      match atoiDigits (c :: rest) with
      | some n => if (n : Int) ≤ intMax then some (n : Int) else none
      | none => none

/-- Errors of `parseTimeout`, one constructor per return site. -/
inductive TParseErr where
  | badFormat
  | badNumber
  | badUnit (u : Char)
deriving DecidableEq, Repr

/-- Nanoseconds per unit, the `time.Second` / `time.Minute` / `time.Hour`
constants of the `switch` in `parseTimeout`. -/
def unitNanos (c : Char) : Option Int :=
  if c = 's' then some 1000000000
  else if c = 'm' then some 60000000000
  else if c = 'h' then some 3600000000000
  else none

/-- Two's-complement wraparound of Go 64-bit signed multiplication, as in
`time.Duration(num) * time.Second`. -/
def i64wrap (n : Int) : Int :=
  (n + 9223372036854775808) % 18446744073709551616 - 9223372036854775808

/-- Model of `parseTimeout`: the result is the `time.Duration` in
nanoseconds. -/
def parseTimeout (s : String) : Except TParseErr Int :=
  if s.data.length < 2 then .error .badFormat
  else
    match atoi s.data.dropLast with
    | none => .error .badNumber
    | some num =>
      match unitNanos (s.data.getLastD ' ') with
      | some u => .ok (i64wrap (num * u))
      | none => .error (.badUnit (s.data.getLastD ' '))

/-- The duration a validator-accepted timeout string denotes, in
nanoseconds, computed exactly (no 64-bit bounds). Follows the words of the
specification: the number of units times the unit length. -/
def timeoutNanos (s : String) : Option Int :=
  if validTimeoutString s then
    (unitNanos (s.data.getLastD ' ')).map
      (fun u => (digitsToNat s.data.dropLast : Int) * u)
  else none

/-! ## Executor (`Execute` in `executor.go`)

`ExecutePlan` embeds `Execute` up to the point where the subprocess would
be resolved and spawned: the required-argument check, the argument vector,
and the effective deadline. Executable resolution and process execution
are operating-system effects outside the embedding. -/

/-- Failures of the embedded prefix of `Execute`. -/
inductive ExecErr where
  | missingArg (name : String)
  | invalidTimeout (e : TParseErr)
deriving DecidableEq, Repr

/-- What `Execute` has decided just before spawning: argument vector and
deadline. -/
structure ExecPlan where
  execArgs : List String
  timeoutNs : Int
deriving DecidableEq, Repr

/-- The `120 * time.Second` default of `Execute`. -/
def defaultTimeoutNs : Int := 120 * 1000000000

/-- Model of `buildArgs`: supplied arguments restricted to declared
parameter names, stringified (iteration in list order). -/
def buildArgs (cmd : Command) (args : List (String × Value)) : List String :=
  (args.filter (fun kv => (lookupMap cmd.args kv.1).isSome)).map
    (fun kv => argToString kv.2)

/-- The required-argument loop of `Execute`: first required parameter
missing from the supplied arguments, if any. -/
def firstMissingRequired (cmd : Command) (args : List (String × Value)) :
    Option String :=
  cmd.args.findSome? (fun kv =>
    if kv.2.required && (lookupMap args kv.1).isNone then some kv.1 else none)

/-- Model of `Execute` up to process spawn. -/
def ExecutePlan (cmd : Command) (args : List (String × Value)) :
    Except ExecErr ExecPlan :=
  match firstMissingRequired cmd args with
  | some argName => .error (.missingArg argName)
  | none =>
    let execArgs := buildArgs cmd args
    if cmd.timeout = "" then .ok ⟨execArgs, defaultTimeoutNs⟩
    else
      match parseTimeout cmd.timeout with
      | .error e => .error (.invalidTimeout e)
      | .ok t => .ok ⟨execArgs, t⟩

/-! ## Command parsing (`parseCommand` in `handlers.go`) -/

/-- Errors of `execBatchOp` and `parseCommand`, one constructor per
distinct failure site. -/
inductive OpErr where
  | parseArg (argName : String)
  | reg (e : RegErr)
  | nameRequired
  | unknownOperation (op : String)
deriving DecidableEq, Repr

/-- The args-spec loop of `parseCommand`: each value must be an object;
`type`, `description` and `required` are read with zero-value defaults. -/
def parseArgSpecs : List (String × Value) → Except OpErr (List (String × Arg))
  | [] => .ok []
  | (argName, v) :: rest =>
    match v with
    | .obj argMap =>
      let arg : Arg :=
        { type := getStr argMap "type"
          description := getStr argMap "description"
          required := getBool argMap "required" }
      match parseArgSpecs rest with
      | .ok others => .ok ((argName, arg) :: others)
      | .error e => .error e
    | _ => .error (.parseArg argName)

/-- Model of `parseCommand`: builds a `Command` from a tool-call argument
map, defaulting `Timeout` to `"120s"`. -/
def parseCommand (m : List (String × Value)) : Except OpErr Command :=
  let base : Command :=
    { name := getStr m "name"
      exec := getStr m "exec"
      args := []
      description := getStr m "description"
      async := getBool m "async"
      timeout :=
        match lookupMap m "timeout" with
        | some (.str t) => t
        | _ => "120s" }
  match lookupMap m "args" with
  | some (.obj argsRaw) =>
    match parseArgSpecs argsRaw with
    | .ok specs => .ok { base with args := specs }
    | .error e => .error e
  | _ => .ok base

/-! ## Batch coordinator (`handle_batch.go`) -/

/-- Model of `batchOperation`. -/
structure BatchOperation where
  operation : String
  params : List (String × Value)

/-- Model of `batchResult` (`error` holds the structured error whose
message the Go code stores). -/
structure BatchResult where
  index : Nat
  operation : String
  name : String
  success : Bool
  error : Option OpErr
deriving DecidableEq, Repr

/-- Model of `execBatchOp`: dispatch one batch operation to the registry,
returning the new contents and the optional error. -/
def execBatchOp (r : Registry) (op : BatchOperation) : Registry × Option OpErr :=
  if op.operation = "add_command" then
    match parseCommand op.params with
    | .error e => (r, some e)
    | .ok cmd =>
      let res := Registry.Add r cmd
      (res.1, res.2.map .reg)
  else if op.operation = "remove_command" then
    let name := getStr op.params "name"
    if name = "" then (r, some .nameRequired)
    else
      let res := Registry.Remove r name
      (res.1, res.2.map .reg)
  else if op.operation = "update_command" then
    let name := getStr op.params "name"
    if name = "" then (r, some .nameRequired)
    else
      match parseCommand op.params with
      | .error e => (r, some e)
      | .ok cmd =>
        let res := Registry.Update r name cmd
        (res.1, res.2.map .reg)
  else (r, some (.unknownOperation op.operation))

/-- The response of a batch run in atomic mode: either the rollback
response (`success: false`, `rolled_back: true`, `failed_at`, results so
far) or the success response with all results. -/
inductive BatchOutcome where
  | rolledBack (failedAt : Nat) (error : OpErr) (results : List BatchResult)
  | allOk (results : List BatchResult)
deriving DecidableEq, Repr

/-- Observable outcome of `batchAtomic`: final registry contents, number
of `persist()` calls, and the response. -/
structure BatchReturn where
  registry : Registry
  persists : Nat
  outcome : BatchOutcome
deriving DecidableEq, Repr

/-- The loop of `batchAtomic`: apply operations in order, rolling the
registry back to the snapshot on the first failure. -/
def batchAtomicGo (snapshot : List (String × Command)) (r : Registry)
    (i : Nat) (acc : List BatchResult) :
    List BatchOperation → BatchReturn
  | [] => ⟨r, 1, .allOk acc⟩
  | op :: rest =>
    let nm := getStr op.params "name"
    match execBatchOp r op with
    | (_, some e) =>
      ⟨Registry.Load snapshot, 0,
        .rolledBack i e (acc ++ [⟨i, op.operation, nm, false, some e⟩])⟩
    | (r2, none) =>
      batchAtomicGo snapshot r2 (i + 1)
        (acc ++ [⟨i, op.operation, nm, true, none⟩]) rest

/-- Model of `batchAtomic`: snapshot, run the loop, persist once on full
success. -/
def batchAtomic (r : Registry) (ops : List BatchOperation) : BatchReturn :=
  batchAtomicGo (Registry.Snapshot r) r 0 [] ops

/-- Observable outcome of `batchPartial`: final registry contents, number
of `persist()` calls, the reported overall success, and all results. -/
structure PartialReturn where
  registry : Registry
  persists : Nat
  success : Bool
  results : List BatchResult
deriving DecidableEq, Repr

/-- The loop of `batchPartial`: apply every operation, record per-operation
results, count successes. -/
def batchPartialGo (r : Registry) (i : Nat) (acc : List BatchResult)
    (succeeded : Nat) : List BatchOperation → PartialReturn
  | [] => ⟨r, if succeeded > 0 then 1 else 0, succeeded == acc.length, acc⟩
  | op :: rest =>
    let nm := getStr op.params "name"
    match execBatchOp r op with
    | (r2, some e) =>
      batchPartialGo r2 (i + 1)
        (acc ++ [⟨i, op.operation, nm, false, some e⟩]) succeeded rest
    | (r2, none) =>
      batchPartialGo r2 (i + 1)
        (acc ++ [⟨i, op.operation, nm, true, none⟩]) (succeeded + 1) rest

/-- Model of `batchPartial` (partial, non-atomic mode). -/
def batchPartialMode (r : Registry) (ops : List BatchOperation) : PartialReturn :=
  batchPartialGo r 0 [] 0 ops

/-- Index and error of the first operation to fail when the list is
applied sequentially from the given contents (the phrase "operation k is
the first to fail" of the claims). -/
def firstFailAux (r : Registry) (i : Nat) :
    List BatchOperation → Option (Nat × OpErr)
  | [] => none
  | op :: rest =>
    match execBatchOp r op with
    | (_, some e) => some (i, e)
    | (r2, none) => firstFailAux r2 (i + 1) rest

/-- First failing operation of a batch, 0-indexed. -/
def firstFail (r : Registry) (ops : List BatchOperation) : Option (Nat × OpErr) :=
  firstFailAux r 0 ops

/-- Sequential application ignoring failures (each failing operation
leaves the contents unchanged), the registry a partial batch ends with. -/
def applyOpsLoose (r : Registry) (ops : List BatchOperation) : Registry :=
  ops.foldl (fun acc op => (execBatchOp acc op).1) r

/-! ## Dispatcher (`handleToolsCall` in `tools.go`) -/

/-- The keys of the `builtinHandlers()` map. -/
def builtinNames : List String :=
  ["help", "add_command", "remove_command", "list_commands", "get_command",
    "batch_exec", "update_command", "import_config", "export_config"]

/-- Routing decision of `handleToolsCall` for a `tools/call` request. -/
inductive Dispatch where
  | builtin (name : String)
  | dynamic (cmd : Command)
  | protocolError (code : Int) (message : String)
deriving DecidableEq, Repr

/-- Model of the dispatch prefix of `handleToolsCall`: built-in table
first, then registry lookup, then the `-32602` protocol error. -/
def dispatchToolsCall (r : Registry) (name : String) : Dispatch :=
  if name ∈ builtinNames then .builtin name
  else
    match Registry.Get r name with
    | .ok cmd => .dynamic cmd
    | .error _ => .protocolError (-32602) ("Unknown tool: " ++ name)

/-! ## Registry mutation sequences (for the preserved invariant) -/

/-- One public mutation of the registry. -/
inductive RegAction where
  | add (cmd : Command)
  | remove (name : String)
  | update (name : String) (cmd : Command)
deriving DecidableEq, Repr

/-- Contents after one mutation (failures leave the contents unchanged,
as the methods do). -/
def applyAction (r : Registry) (a : RegAction) : Registry :=
  match a with
  | .add cmd => (Registry.Add r cmd).1
  | .remove name => (Registry.Remove r name).1
  | .update name cmd => (Registry.Update r name cmd).1

/-- Contents after a sequence of mutations. -/
def applyActions (r : Registry) (acts : List RegAction) : Registry :=
  acts.foldl applyAction r


/-- Number of operations that succeed when a batch is applied
sequentially (what `succeeded` counts in partial mode). -/
def countOk (r : Registry) : List BatchOperation → Nat
  | [] => 0
  | op :: rest =>
    match execBatchOp r op with
    | (r2, some _) => countOk r2 rest
    | (r2, none) => countOk r2 rest + 1

/-- The per-operation results a partial batch reports, from the given
contents and starting index. -/
def partialResults (r : Registry) (i : Nat) :
    List BatchOperation → List BatchResult
  | [] => []
  | op :: rest =>
    match execBatchOp r op with
    | (r2, some e) =>
      ⟨i, op.operation, getStr op.params "name", false, some e⟩ ::
        partialResults r2 (i + 1) rest
    | (r2, none) =>
      ⟨i, op.operation, getStr op.params "name", true, none⟩ ::
        partialResults r2 (i + 1) rest


/-! ## Concrete data used by the witnesses -/

/-- The `echo_test`-style command of the repository tests. -/
def cmdEx : Command :=
  ⟨"hello", "/usr/bin/echo", [("msg", ⟨"string", "Message", true⟩)],
    "Test command", false, "30s"⟩

/-- A dynamic entry whose name collides with the built-in `help`. -/
def helpCmd : Command := ⟨"help", "/bin/true", [], "", false, ""⟩

/-- A valid batch add operation. -/
def opAdd1 : BatchOperation :=
  ⟨"add_command", [("name", .str "c1"), ("exec", .str "/bin/a")]⟩

/-- A batch add operation with a malformed timeout (fails validation). -/
def opAdd2 : BatchOperation :=
  ⟨"add_command",
    [("name", .str "c2"), ("exec", .str "/bin/b"), ("timeout", .str "abc")]⟩

/-- A second valid batch add operation. -/
def opAdd3 : BatchOperation :=
  ⟨"add_command", [("name", .str "c3"), ("exec", .str "/bin/c")]⟩

/-- A command with a present but malformed timeout string. -/
def cxTimeoutCmd : Command := ⟨"badtimeout", "/bin/true", [], "", false, "abc"⟩

/-- A command whose timeout passes the catalog validator but overflows the
64-bit parse in the Executor. -/
def hugeTimeoutCmd : Command :=
  ⟨"huge", "/bin/true", [], "", false, "9223372036854775808s"⟩

/-! ## Validation lemmas -/

theorem validateArgs_eq_none_iff (name : String) (l : List (String × Arg)) :
    validateArgs name l = none ↔ ∀ kv ∈ l, validType kv.2.type = true := by
  induction l with
  | nil => simp [validateArgs]
  | cons hd tl ih =>
    obtain ⟨an, a⟩ := hd
    by_cases h1 : a.type = ""
    · have h2 : validType a.type = false := by rw [h1]; rfl
      simp only [validateArgs, h1, if_pos rfl]
      constructor
      · intro hx; exact Option.noConfusion hx
      · intro hall
        have := hall (an, a) (List.mem_cons_self _ _)
        rw [h1] at this
        exact absurd this (by decide)
    · rw [show validateArgs name ((an, a) :: tl) =
        (if a.type = "" then some (.argTypeMissing an name)
          else if !validType a.type then some (.argTypeInvalid an name a.type)
          else validateArgs name tl) from rfl, if_neg h1]
      by_cases h2 : validType a.type
      · simp [h2, ih]
      · simp only [Bool.not_eq_true] at h2
        simp [h2]

theorem validateCommand_eq_none_iff (cmd : Command) :
    validateCommand cmd = none ↔
      validName cmd.name = true ∧ cmd.exec ≠ "" ∧
        (∀ kv ∈ cmd.args, validType kv.2.type = true) ∧
        (cmd.timeout = "" ∨ validTimeoutString cmd.timeout = true) := by
  unfold validateCommand
  by_cases h1 : cmd.name = ""
  · constructor
    · intro hx
      rw [if_pos h1] at hx
      exact Option.noConfusion hx
    · rintro ⟨hv, -⟩
      rw [h1] at hv
      exact absurd hv (by decide)
  · rw [if_neg h1]
    by_cases h2 : validName cmd.name
    · simp only [h2, Bool.not_true, Bool.false_eq_true, if_false]
      by_cases h3 : cmd.exec = ""
      · simp [h3]
      · rw [if_neg h3]
        cases hva : validateArgs cmd.name cmd.args with
        | some e =>
          have hnall : ¬ ∀ kv ∈ cmd.args, validType kv.2.type = true := by
            intro hall
            rw [(validateArgs_eq_none_iff cmd.name cmd.args).mpr hall] at hva
            exact Option.noConfusion hva
          simp only [h2, h3]
          constructor
          · intro hx; exact Option.noConfusion hx
          · rintro ⟨-, -, hall, -⟩
            exact absurd hall hnall
        | none =>
          have hall := (validateArgs_eq_none_iff cmd.name cmd.args).mp hva
          by_cases h4 : cmd.timeout = ""
          · rw [if_neg (by simp [h4])]
            constructor
            · intro _
              exact ⟨trivial, h3, hall, Or.inl h4⟩
            · intro _; rfl
          · rw [if_pos (by simp [h4])]
            by_cases h5 : validTimeoutString cmd.timeout = true
            · rw [if_pos h5]
              constructor
              · intro _
                exact ⟨trivial, h3, hall, Or.inr h5⟩
              · intro _; rfl
            · rw [if_neg h5]
              constructor
              · intro hx; exact Option.noConfusion hx
              · rintro ⟨-, -, -, ht⟩
                rcases ht with ht | ht
                · exact (h4 ht).elim
                · exact (h5 ht).elim
    · simp only [Bool.not_eq_true] at h2
      simp [h2]

/-! ## Failure leaves the registry unchanged -/

theorem add_fail_eq (r : Registry) (cmd : Command)
    (h : (Registry.Add r cmd).2 ≠ none) : (Registry.Add r cmd).1 = r := by
  unfold Registry.Add at h ⊢
  cases hv : validateCommand cmd with
  | some e => simp [hv]
  | none =>
    simp only [hv] at h ⊢
    by_cases hl : (lookupMap r cmd.name).isSome
    · simp [hl]
    · simp [hl] at h

theorem remove_fail_eq (r : Registry) (name : String)
    (h : (Registry.Remove r name).2 ≠ none) : (Registry.Remove r name).1 = r := by
  unfold Registry.Remove at h ⊢
  by_cases hl : (lookupMap r name).isSome
  · simp [hl] at h
  · simp [hl]

theorem update_fail_eq (r : Registry) (name : String) (cmd : Command)
    (h : (Registry.Update r name cmd).2 ≠ none) :
    (Registry.Update r name cmd).1 = r := by
  unfold Registry.Update at h ⊢
  cases hv : validateCommand cmd with
  | some e => simp [hv]
  | none =>
    simp only [hv] at h ⊢
    by_cases hl : (lookupMap r name).isNone
    · simp [hl]
    · simp [hl] at h

theorem execBatchOp_fail_eq (r : Registry) (op : BatchOperation)
    (h : (execBatchOp r op).2 ≠ none) : (execBatchOp r op).1 = r := by
  unfold execBatchOp at h ⊢
  by_cases h1 : op.operation = "add_command"
  · simp only [h1, if_true] at h ⊢
    cases hp : parseCommand op.params with
    | error e => simp [hp]
    | ok cmd =>
      simp only [hp] at h ⊢
      refine add_fail_eq r cmd ?_
      intro h2
      rw [h2] at h
      exact h rfl
  · rw [if_neg h1] at h ⊢
    by_cases h2 : op.operation = "remove_command"
    · simp only [h2, if_true] at h ⊢
      by_cases h3 : getStr op.params "name" = ""
      · simp [h3]
      · simp only [h3, if_false] at h ⊢
        refine remove_fail_eq r _ ?_
        intro h4
        rw [h4] at h
        exact h rfl
    · rw [if_neg h2] at h ⊢
      by_cases h3 : op.operation = "update_command"
      · simp only [h3, if_true] at h ⊢
        by_cases h4 : getStr op.params "name" = ""
        · simp [h4]
        · simp only [h4, if_false] at h ⊢
          cases hp : parseCommand op.params with
          | error e => simp [hp]
          | ok cmd =>
            simp only [hp] at h ⊢
            refine update_fail_eq r _ cmd ?_
            intro h5
            rw [h5] at h
            exact h rfl
      · simp [if_neg h3]

/-! ## Timeout parsing lemmas -/

theorem i64wrap_eq_of (n : Int) (h1 : 0 ≤ n)
    (h2 : n < 9223372036854775808) : i64wrap n = n := by
  unfold i64wrap
  omega

theorem atoiDigits_eq (l : List Char) (hne : l.isEmpty = false)
    (hd : l.all Char.isDigit = true) : atoiDigits l = some (digitsToNat l) := by
  unfold atoiDigits
  simp [hne, hd]

theorem atoi_digits (l : List Char) (hne : l ≠ [])
    (hd : l.all Char.isDigit = true)
    (hb : ((digitsToNat l : Int)) ≤ intMax) :
    atoi l = some ((digitsToNat l : Int)) := by
  cases l with
  | nil => exact absurd rfl hne
  | cons c rest =>
    have hc : c.isDigit = true := by
      simp only [List.all_cons, Bool.and_eq_true] at hd
      exact hd.1
    have hcp : ¬ c = '+' := by
      intro h; rw [h] at hc; exact absurd hc (by decide)
    have hcm : ¬ c = '-' := by
      intro h; rw [h] at hc; exact absurd hc (by decide)
    have hd2 : (c :: rest).all Char.isDigit = true := by
      simp only [List.all_cons, Bool.and_eq_true]
      exact ⟨hc, by simp only [List.all_cons, Bool.and_eq_true] at hd; exact hd.2⟩
    have had : atoiDigits (c :: rest) = some (digitsToNat (c :: rest)) :=
      atoiDigits_eq _ (by simp) hd2
    unfold atoi
    simp only [had, if_neg hcp, if_neg hcm]
    simp [hb]

theorem parseTimeout_ok (s : String) (u : Int)
    (hne : s.data.dropLast ≠ [])
    (hdig : s.data.dropLast.all Char.isDigit = true)
    (hu : unitNanos (s.data.getLastD ' ') = some u)
    (hb : ((digitsToNat s.data.dropLast : Int)) ≤ intMax)
    (hw1 : 0 ≤ (digitsToNat s.data.dropLast : Int) * u)
    (hw2 : (digitsToNat s.data.dropLast : Int) * u < 9223372036854775808) :
    parseTimeout s = .ok ((digitsToNat s.data.dropLast : Int) * u) := by
  unfold parseTimeout
  have hlen2 : s.data.dropLast.length = s.data.length - 1 := by
    simp [List.length_dropLast]
  have hpos : 0 < s.data.dropLast.length := List.length_pos.mpr hne
  have hlen : ¬ s.data.length < 2 := by omega
  rw [if_neg hlen, atoi_digits _ hne hdig hb]
  simp only [hu]
  rw [i64wrap_eq_of _ hw1 hw2]

theorem validTimeoutString_parts (s : String)
    (h : validTimeoutString s = true) :
    s.data.dropLast ≠ [] ∧ s.data.dropLast.all Char.isDigit = true ∧
      (s.data.getLastD ' ' = 's' ∨ s.data.getLastD ' ' = 'm' ∨
        s.data.getLastD ' ' = 'h') := by
  unfold validTimeoutString at h
  simp only [Bool.and_eq_true, Bool.or_eq_true, beq_iff_eq] at h
  obtain ⟨⟨h1, h2⟩, h3⟩ := h
  refine ⟨?_, h2, by tauto⟩
  intro hnil
  rw [hnil] at h1
  simp at h1

/-! ## Atomic batch lemmas -/

theorem firstFailAux_ge (ops : List BatchOperation) :
    ∀ r i k e, firstFailAux r i ops = some (k, e) → i ≤ k := by
  induction ops with
  | nil => intro r i k e h; simp [firstFailAux] at h
  | cons op rest ih =>
    intro r i k e h
    simp only [firstFailAux] at h
    cases hop : execBatchOp r op with
    | mk r2 eo =>
      rw [hop] at h
      cases eo with
      | some e2 =>
        have h2 : (some (i, e2) : Option (Nat × OpErr)) = some (k, e) := h
        have h3 : i = k := by
          injection h2 with h4
          exact congrArg Prod.fst h4
        omega
      | none =>
        have h2 : firstFailAux r2 (i + 1) rest = some (k, e) := h
        have := ih r2 (i + 1) k e h2
        omega

theorem batchAtomicGo_fail (ops : List BatchOperation) :
    ∀ snap r i acc k e, firstFailAux r i ops = some (k, e) →
      ∃ rs, batchAtomicGo snap r i acc ops =
        ⟨Registry.Load snap, 0, .rolledBack k e rs⟩ ∧
        rs.length = acc.length + (k - i) + 1 := by
  induction ops with
  | nil => intro snap r i acc k e h; simp [firstFailAux] at h
  | cons op rest ih =>
    intro snap r i acc k e h
    simp only [firstFailAux] at h
    cases hop : execBatchOp r op with
    | mk r2 eo =>
      rw [hop] at h
      cases eo with
      | some e2 =>
        have h2 : (some (i, e2) : Option (Nat × OpErr)) = some (k, e) := h
        have h3 : (i, e2) = (k, e) := by injection h2
        have hik : i = k := congrArg Prod.fst h3
        have hee : e2 = e := congrArg Prod.snd h3
        subst hik
        subst hee
        refine ⟨acc ++ [⟨i, op.operation, getStr op.params "name", false, some e2⟩], ?_, ?_⟩
        · have hstep : batchAtomicGo snap r i acc (op :: rest) =
            ⟨Registry.Load snap, 0, .rolledBack i e2
              (acc ++ [⟨i, op.operation, getStr op.params "name", false, some e2⟩])⟩ := by
            simp only [batchAtomicGo]
            rw [hop]
          exact hstep
        · simp
      | none =>
        have h2 : firstFailAux r2 (i + 1) rest = some (k, e) := h
        have hik : i + 1 ≤ k := firstFailAux_ge rest r2 (i + 1) k e h2
        obtain ⟨rs, heq, hlen⟩ := ih snap r2 (i + 1)
          (acc ++ [⟨i, op.operation, getStr op.params "name", true, none⟩]) k e h2
        refine ⟨rs, ?_, ?_⟩
        · have hstep : batchAtomicGo snap r i acc (op :: rest) =
            batchAtomicGo snap r2 (i + 1)
              (acc ++ [⟨i, op.operation, getStr op.params "name", true, none⟩]) rest := by
            simp only [batchAtomicGo]
            rw [hop]
          rw [hstep]
          exact heq
        · rw [hlen]
          simp
          omega

theorem batchAtomicGo_ok (ops : List BatchOperation) :
    ∀ snap r i acc, firstFailAux r i ops = none →
      ∃ r2 rs, batchAtomicGo snap r i acc ops = ⟨r2, 1, .allOk (acc ++ rs)⟩ ∧
        rs.length = ops.length ∧ ∀ x ∈ rs, x.success = true := by
  induction ops with
  | nil =>
    intro snap r i acc _
    exact ⟨r, [], by simp [batchAtomicGo], rfl, by simp⟩
  | cons op rest ih =>
    intro snap r i acc h
    simp only [firstFailAux] at h
    cases hop : execBatchOp r op with
    | mk r2 eo =>
      rw [hop] at h
      cases eo with
      | some e2 =>
        have h2 : (some (i, e2) : Option (Nat × OpErr)) = none := h
        exact Option.noConfusion h2
      | none =>
        have h2 : firstFailAux r2 (i + 1) rest = none := h
        obtain ⟨r3, rs, heq, hlen, hsucc⟩ := ih snap r2 (i + 1)
          (acc ++ [⟨i, op.operation, getStr op.params "name", true, none⟩]) h2
        refine ⟨r3, ⟨i, op.operation, getStr op.params "name", true, none⟩ :: rs,
          ?_, by simp [hlen], ?_⟩
        · have hstep : batchAtomicGo snap r i acc (op :: rest) =
            batchAtomicGo snap r2 (i + 1)
              (acc ++ [⟨i, op.operation, getStr op.params "name", true, none⟩]) rest := by
            simp only [batchAtomicGo]
            rw [hop]
          rw [hstep, heq]
          simp [List.append_assoc]
        · intro x hx
          rcases List.mem_cons.mp hx with h1 | h1
          · rw [h1]
          · exact hsucc x h1

/-! ## Partial batch lemmas -/

theorem countOk_le (ops : List BatchOperation) :
    ∀ r, countOk r ops ≤ ops.length := by
  induction ops with
  | nil => intro r; simp [countOk]
  | cons op rest ih =>
    intro r
    cases hop : execBatchOp r op with
    | mk r2 eo =>
      cases eo with
      | some e =>
        have hstep : countOk r (op :: rest) = countOk r2 rest := by
          simp only [countOk]; rw [hop]
        rw [hstep]
        have := ih r2
        simp only [List.length_cons]
        omega
      | none =>
        have hstep : countOk r (op :: rest) = countOk r2 rest + 1 := by
          simp only [countOk]; rw [hop]
        rw [hstep]
        have := ih r2
        simp only [List.length_cons]
        omega

theorem batchPartialGo_eq (ops : List BatchOperation) :
    ∀ r i acc succ,
      batchPartialGo r i acc succ ops =
        ⟨applyOpsLoose r ops,
          if succ + countOk r ops > 0 then 1 else 0,
          (succ + countOk r ops) == (acc.length + ops.length),
          acc ++ partialResults r i ops⟩ := by
  induction ops with
  | nil =>
    intro r i acc succ
    simp [batchPartialGo, applyOpsLoose, countOk, partialResults]
  | cons op rest ih =>
    intro r i acc succ
    cases hop : execBatchOp r op with
    | mk r2 eo =>
      cases eo with
      | some e =>
        have hstep : batchPartialGo r i acc succ (op :: rest) =
          batchPartialGo r2 (i + 1)
            (acc ++ [⟨i, op.operation, getStr op.params "name", false, some e⟩])
            succ rest := by
          simp only [batchPartialGo]; rw [hop]
        have hC : countOk r (op :: rest) = countOk r2 rest := by
          simp only [countOk]; rw [hop]
        have hA : applyOpsLoose r (op :: rest) = applyOpsLoose r2 rest := by
          simp only [applyOpsLoose, List.foldl_cons]; rw [hop]
        have hP : partialResults r i (op :: rest) =
          ⟨i, op.operation, getStr op.params "name", false, some e⟩ ::
            partialResults r2 (i + 1) rest := by
          simp only [partialResults]; rw [hop]
        rw [hstep, ih r2 (i + 1) _ succ, hC, hA, hP]
        have hlen : (acc ++
            [(⟨i, op.operation, getStr op.params "name", false, some e⟩ :
              BatchResult)]).length + rest.length =
            acc.length + (op :: rest).length := by
          simp
          omega
        rw [hlen]
        simp [List.append_assoc]
      | none =>
        have hstep : batchPartialGo r i acc succ (op :: rest) =
          batchPartialGo r2 (i + 1)
            (acc ++ [⟨i, op.operation, getStr op.params "name", true, none⟩])
            (succ + 1) rest := by
          simp only [batchPartialGo]; rw [hop]
        have hC : countOk r (op :: rest) = countOk r2 rest + 1 := by
          simp only [countOk]; rw [hop]
        have hA : applyOpsLoose r (op :: rest) = applyOpsLoose r2 rest := by
          simp only [applyOpsLoose, List.foldl_cons]; rw [hop]
        have hP : partialResults r i (op :: rest) =
          ⟨i, op.operation, getStr op.params "name", true, none⟩ ::
            partialResults r2 (i + 1) rest := by
          simp only [partialResults]; rw [hop]
        rw [hstep, ih r2 (i + 1) _ (succ + 1), hC, hA, hP]
        have hn1 : succ + 1 + countOk r2 rest = succ + (countOk r2 rest + 1) := by
          omega
        have hlen : (acc ++
            [(⟨i, op.operation, getStr op.params "name", true, none⟩ :
              BatchResult)]).length + rest.length =
            acc.length + (op :: rest).length := by
          simp
          omega
        rw [hn1, hlen]
        simp [List.append_assoc]

theorem partialResults_length (ops : List BatchOperation) :
    ∀ r i, (partialResults r i ops).length = ops.length := by
  induction ops with
  | nil => intro r i; simp [partialResults]
  | cons op rest ih =>
    intro r i
    cases hop : execBatchOp r op with
    | mk r2 eo =>
      cases eo with
      | some e =>
        have hP : partialResults r i (op :: rest) =
          ⟨i, op.operation, getStr op.params "name", false, some e⟩ ::
            partialResults r2 (i + 1) rest := by
          simp only [partialResults]; rw [hop]
        rw [hP]
        simp [ih r2]
      | none =>
        have hP : partialResults r i (op :: rest) =
          ⟨i, op.operation, getStr op.params "name", true, none⟩ ::
            partialResults r2 (i + 1) rest := by
          simp only [partialResults]; rw [hop]
        rw [hP]
        simp [ih r2]

theorem partialResults_all (ops : List BatchOperation) :
    ∀ r i, ((partialResults r i ops).all fun x => x.success) =
      (countOk r ops == ops.length) := by
  induction ops with
  | nil => intro r i; simp [partialResults, countOk]
  | cons op rest ih =>
    intro r i
    cases hop : execBatchOp r op with
    | mk r2 eo =>
      cases eo with
      | some e =>
        have hP : partialResults r i (op :: rest) =
          ⟨i, op.operation, getStr op.params "name", false, some e⟩ ::
            partialResults r2 (i + 1) rest := by
          simp only [partialResults]; rw [hop]
        have hC : countOk r (op :: rest) = countOk r2 rest := by
          simp only [countOk]; rw [hop]
        rw [hP, hC]
        have hlt : countOk r2 rest < (op :: rest).length := by
          have := countOk_le rest r2
          simp only [List.length_cons]
          omega
        simp only [List.all_cons, List.length_cons]
        have hne2 : countOk r2 rest ≠ rest.length + 1 := by
          simp only [List.length_cons] at hlt
          omega
        simp [hne2]
      | none =>
        have hP : partialResults r i (op :: rest) =
          ⟨i, op.operation, getStr op.params "name", true, none⟩ ::
            partialResults r2 (i + 1) rest := by
          simp only [partialResults]; rw [hop]
        have hC : countOk r (op :: rest) = countOk r2 rest + 1 := by
          simp only [countOk]; rw [hop]
        rw [hP, hC]
        simp only [List.all_cons, List.length_cons]
        have hbeq : (countOk r2 rest + 1 == rest.length + 1) =
          (countOk r2 rest == rest.length) := by
          by_cases h2 : countOk r2 rest = rest.length
          · simp [h2]
          · have h3 : countOk r2 rest + 1 ≠ rest.length + 1 := by omega
            simp [h2, h3]
        rw [hbeq]
        simp [ih r2]

theorem partialResults_any (ops : List BatchOperation) :
    ∀ r i, ((partialResults r i ops).any fun x => x.success) =
      decide (0 < countOk r ops) := by
  induction ops with
  | nil => intro r i; simp [partialResults, countOk]
  | cons op rest ih =>
    intro r i
    cases hop : execBatchOp r op with
    | mk r2 eo =>
      cases eo with
      | some e =>
        have hP : partialResults r i (op :: rest) =
          ⟨i, op.operation, getStr op.params "name", false, some e⟩ ::
            partialResults r2 (i + 1) rest := by
          simp only [partialResults]; rw [hop]
        have hC : countOk r (op :: rest) = countOk r2 rest := by
          simp only [countOk]; rw [hop]
        rw [hP, hC]
        simp [List.any_cons, ih r2]
      | none =>
        have hP : partialResults r i (op :: rest) =
          ⟨i, op.operation, getStr op.params "name", true, none⟩ ::
            partialResults r2 (i + 1) rest := by
          simp only [partialResults]; rw [hop]
        have hC : countOk r (op :: rest) = countOk r2 rest + 1 := by
          simp only [countOk]; rw [hop]
        rw [hP, hC]
        simp [List.any_cons]

theorem partialResults_erase (ops : List BatchOperation) :
    ∀ r i j res, (partialResults r i ops)[j]? = some res →
      res.success = false →
      applyOpsLoose r ops = applyOpsLoose r (ops.eraseIdx j) := by
  induction ops with
  | nil => intro r i j res h; simp [partialResults] at h
  | cons op rest ih =>
    intro r i j res h hfail
    cases hop : execBatchOp r op with
    | mk r2 eo =>
      have hA : applyOpsLoose r (op :: rest) = applyOpsLoose r2 rest := by
        simp only [applyOpsLoose, List.foldl_cons]; rw [hop]
      cases eo with
      | some e =>
        have hr2 : r2 = r := by
          have := execBatchOp_fail_eq r op (by rw [hop]; simp)
          rw [hop] at this
          exact this
        have hP : partialResults r i (op :: rest) =
          ⟨i, op.operation, getStr op.params "name", false, some e⟩ ::
            partialResults r2 (i + 1) rest := by
          simp only [partialResults]; rw [hop]
        rw [hP] at h
        cases j with
        | zero =>
          simp only [List.eraseIdx_cons_zero]
          rw [hA, hr2]
        | succ j2 =>
          simp only [List.getElem?_cons_succ] at h
          simp only [List.eraseIdx_cons_succ]
          have hA2 : applyOpsLoose r (op :: rest.eraseIdx j2) =
            applyOpsLoose r2 (rest.eraseIdx j2) := by
            simp only [applyOpsLoose, List.foldl_cons]; rw [hop]
          rw [hA, hA2]
          exact ih r2 (i + 1) j2 res h hfail
      | none =>
        have hP : partialResults r i (op :: rest) =
          ⟨i, op.operation, getStr op.params "name", true, none⟩ ::
            partialResults r2 (i + 1) rest := by
          simp only [partialResults]; rw [hop]
        rw [hP] at h
        cases j with
        | zero =>
          simp only [List.getElem?_cons_zero] at h
          have : res.success = true := by
            injection h with h2
            rw [← h2]
          rw [this] at hfail
          exact Bool.noConfusion hfail
        | succ j2 =>
          simp only [List.getElem?_cons_succ] at h
          simp only [List.eraseIdx_cons_succ]
          have hA2 : applyOpsLoose r (op :: rest.eraseIdx j2) =
            applyOpsLoose r2 (rest.eraseIdx j2) := by
            simp only [applyOpsLoose, List.foldl_cons]; rw [hop]
          rw [hA, hA2]
          exact ih r2 (i + 1) j2 res h hfail

/-! ## Required-argument lemmas -/

theorem findReq_some (args : List (String × Value)) (l : List (String × Arg))
    (an : String)
    (h : (l.findSome? fun kv =>
      if kv.2.required && (lookupMap args kv.1).isNone then some kv.1
      else none) = some an) :
    ∃ sp, (an, sp) ∈ l ∧ sp.required = true ∧ lookupMap args an = none := by
  induction l with
  | nil => simp at h
  | cons hd tl ih =>
    obtain ⟨hk, hv⟩ := hd
    by_cases hc : (hv.required && (lookupMap args hk).isNone) = true
    · simp only [List.findSome?_cons] at h
      rw [if_pos hc] at h
      have han : hk = an := by
        have h2 : (some hk : Option String) = some an := h
        injection h2
      subst han
      have hc2 := hc
      simp only [Bool.and_eq_true] at hc2
      obtain ⟨h1, h2⟩ := hc2
      exact ⟨hv, List.mem_cons_self _ _, h1, Option.isNone_iff_eq_none.mp h2⟩
    · simp only [List.findSome?_cons] at h
      rw [if_neg hc] at h
      obtain ⟨sp, hmem, hreq, hnone⟩ := ih h
      exact ⟨sp, List.mem_cons_of_mem _ hmem, hreq, hnone⟩

theorem findReq_none (args : List (String × Value)) (l : List (String × Arg))
    (h : (l.findSome? fun kv =>
      if kv.2.required && (lookupMap args kv.1).isNone then some kv.1
      else none) = none) :
    ∀ an sp, (an, sp) ∈ l → sp.required = true →
      (lookupMap args an).isSome = true := by
  induction l with
  | nil => intro an sp hmem; simp at hmem
  | cons hd tl ih =>
    obtain ⟨hk, hv⟩ := hd
    intro an sp hmem hreq
    by_cases hc : (hv.required && (lookupMap args hk).isNone) = true
    · simp only [List.findSome?_cons] at h
      rw [if_pos hc] at h
      have h2 : (some hk : Option String) = none := h
      exact Option.noConfusion h2
    · simp only [List.findSome?_cons] at h
      rw [if_neg hc] at h
      rcases List.mem_cons.mp hmem with h1 | h1
      · have hank : an = hk := congrArg Prod.fst h1
        have hsv : sp = hv := congrArg Prod.snd h1
        subst hank
        subst hsv
        rw [hreq] at hc
        cases hl : lookupMap args an with
        | some v => simp
        | none =>
          exfalso
          apply hc
          rw [hl]
          rfl
      · exact ih h an sp h1 hreq

/-! ## Argument-vector and membership lemmas -/

theorem buildArgs_eq (cmd : Command) (args : List (String × Value)) :
    buildArgs cmd args =
      (args.filter fun kv => decide (kv.1 ∈ cmd.args.map Prod.fst)).map
        fun kv => argToString kv.2 := by
  unfold buildArgs
  congr 1
  apply List.filter_congr
  intro kv _
  by_cases hmem : kv.1 ∈ cmd.args.map Prod.fst
  · simp [hmem, (lookupMap_isSome_iff _ _).mpr hmem]
  · have hnone := lookupMap_eq_none_of_not_mem cmd.args kv.1 hmem
    simp [hmem, hnone]

theorem add_mem (r : Registry) (cmd : Command) (kv : String × Command)
    (h : kv ∈ (Registry.Add r cmd).1) :
    kv ∈ r ∨ (kv = (cmd.name, cmd) ∧ validateCommand cmd = none) := by
  unfold Registry.Add at h
  cases hv : validateCommand cmd with
  | some e =>
    rw [hv] at h
    exact Or.inl h
  | none =>
    rw [hv] at h
    by_cases hl : (lookupMap r cmd.name).isSome = true
    · rw [if_pos hl] at h
      exact Or.inl h
    · rw [if_neg hl] at h
      rcases mem_insertMap r cmd.name cmd kv h with h2 | h2
      · exact Or.inl h2
      · exact Or.inr ⟨h2, rfl⟩

theorem remove_mem (r : Registry) (name : String) (kv : String × Command)
    (h : kv ∈ (Registry.Remove r name).1) : kv ∈ r := by
  unfold Registry.Remove at h
  by_cases hl : (lookupMap r name).isSome = true
  · rw [if_pos hl] at h
    exact mem_eraseMap r name kv h
  · rw [if_neg hl] at h
    exact h

theorem update_mem (r : Registry) (name : String) (cmd : Command)
    (kv : String × Command) (h : kv ∈ (Registry.Update r name cmd).1) :
    kv ∈ r ∨ (kv = (cmd.name, cmd) ∧ validateCommand cmd = none) := by
  unfold Registry.Update at h
  cases hv : validateCommand cmd with
  | some e =>
    rw [hv] at h
    exact Or.inl h
  | none =>
    rw [hv] at h
    by_cases hl : (lookupMap r name).isNone = true
    · rw [if_pos hl] at h
      exact Or.inl h
    · rw [if_neg hl] at h
      have h2 : kv ∈ insertMap
          (if name ≠ cmd.name then eraseMap r name else r) cmd.name cmd := h
      rcases mem_insertMap _ cmd.name cmd kv h2 with h3 | h3
      · by_cases hne : name ≠ cmd.name
        · rw [if_pos hne] at h3
          exact Or.inl (mem_eraseMap r name kv h3)
        · rw [if_neg hne] at h3
          exact Or.inl h3
      · exact Or.inr ⟨h3, rfl⟩

theorem applyActions_inv (acts : List RegAction) :
    ∀ r, (∀ kv ∈ r, kv.1 = kv.2.name ∧ validateCommand kv.2 = none) →
      ∀ kv ∈ applyActions r acts,
        kv.1 = kv.2.name ∧ validateCommand kv.2 = none := by
  induction acts with
  | nil => intro r hr kv hkv; exact hr kv hkv
  | cons a rest ih =>
    intro r hr kv hkv
    have hstep : applyActions r (a :: rest) =
      applyActions (applyAction r a) rest := rfl
    rw [hstep] at hkv
    refine ih (applyAction r a) ?_ kv hkv
    intro kv2 hkv2
    cases a with
    | add cmd =>
      rcases add_mem r cmd kv2 hkv2 with h1 | ⟨h1, h2⟩
      · exact hr kv2 h1
      · constructor
        · rw [h1]
        · rw [h1]; exact h2
    | remove nm => exact hr kv2 (remove_mem r nm kv2 hkv2)
    | update nm cmd =>
      rcases update_mem r nm cmd kv2 hkv2 with h1 | ⟨h1, h2⟩
      · exact hr kv2 h1
      · constructor
        · rw [h1]
        · rw [h1]; exact h2

/-! ## Claim theorems -/

/-- C2: `Registry.Add` fails with a conflict error when the name is
already present, fails with a validation error exactly when a catalog
invariant is violated (name not matching the identity pattern, empty
executable path, a parameter type outside the allowed set, or a malformed
timeout string), otherwise inserts the definition and succeeds; in every
failure case the catalog is unchanged. -/
theorem registry_add_spec (r : Registry) (cmd : Command) :
    (validateCommand cmd = none ↔
      validName cmd.name = true ∧ cmd.exec ≠ "" ∧
        (∀ kv ∈ cmd.args, validType kv.2.type = true) ∧
        (cmd.timeout = "" ∨ validTimeoutString cmd.timeout = true)) ∧
    (∀ e, validateCommand cmd = some e →
      Registry.Add r cmd = (r, some (.invalid e))) ∧
    (validateCommand cmd = none → (lookupMap r cmd.name).isSome = true →
      Registry.Add r cmd = (r, some (.alreadyExists cmd.name))) ∧
    (validateCommand cmd = none → lookupMap r cmd.name = none →
      (Registry.Add r cmd).2 = none ∧
        lookupMap (Registry.Add r cmd).1 cmd.name = some cmd ∧
        ∀ k, k ≠ cmd.name →
          lookupMap (Registry.Add r cmd).1 k = lookupMap r k) ∧
    ((Registry.Add r cmd).2 ≠ none → (Registry.Add r cmd).1 = r) := by
  refine ⟨validateCommand_eq_none_iff cmd, ?_, ?_, ?_, add_fail_eq r cmd⟩
  · intro e he
    unfold Registry.Add
    rw [he]
  · intro hv hl
    unfold Registry.Add
    rw [hv, if_pos hl]
  · intro hv hl
    have hl2 : ¬ (lookupMap r cmd.name).isSome = true := by
      rw [hl]; simp
    have hadd : Registry.Add r cmd = (insertMap r cmd.name cmd, none) := by
      unfold Registry.Add
      rw [hv, if_neg hl2]
    rw [hadd]
    refine ⟨rfl, ?_, ?_⟩
    · rw [lookupMap_insertMap]
      simp
    · intro k hk
      rw [lookupMap_insertMap]
      rw [if_neg (fun hc => hk hc.symm)]

/-- C2 witness: a fresh add succeeds and stores the definition; adding the
same name again reports the conflict and leaves the catalog as it was. -/
theorem registry_add_witness :
    (Registry.Add ([] : Registry) cmdEx).2 = none ∧
    lookupMap (Registry.Add ([] : Registry) cmdEx).1 "hello" = some cmdEx ∧
    Registry.Add [("hello", cmdEx)] cmdEx =
      ([("hello", cmdEx)], some (.alreadyExists "hello")) := by
  have h1 := (registry_add_spec ([] : Registry) cmdEx).2.2.2.1
    (by decide) (by decide)
  have h2 := (registry_add_spec [("hello", cmdEx)] cmdEx).2.2.1
    (by decide) (by decide)
  exact ⟨h1.1, h1.2.1, h2⟩

/-- C5: `Registry.Update` fails with a validation error when the new
definition is invalid, with a not-found error when the old name is absent
(the validation check runs first); on success the new definition is stored
under its own name, a rename deletes the old entry, and an existing third
entry holding the new name is silently overwritten; on every failure the
catalog is unchanged. -/
theorem registry_update_spec (r : Registry) (name : String) (cmd : Command) :
    (∀ e, validateCommand cmd = some e →
      Registry.Update r name cmd = (r, some (.invalid e))) ∧
    (validateCommand cmd = none → lookupMap r name = none →
      Registry.Update r name cmd = (r, some (.notFound name))) ∧
    (validateCommand cmd = none → (lookupMap r name).isSome = true →
      (Registry.Update r name cmd).2 = none ∧
      lookupMap (Registry.Update r name cmd).1 cmd.name = some cmd ∧
      (name ≠ cmd.name →
        lookupMap (Registry.Update r name cmd).1 name = none) ∧
      ∀ k, k ≠ name → k ≠ cmd.name →
        lookupMap (Registry.Update r name cmd).1 k = lookupMap r k) ∧
    ((Registry.Update r name cmd).2 ≠ none →
      (Registry.Update r name cmd).1 = r) := by
  refine ⟨?_, ?_, ?_, update_fail_eq r name cmd⟩
  · intro e he
    unfold Registry.Update
    rw [he]
  · intro hv hl
    have hl2 : (lookupMap r name).isNone = true := by rw [hl]; rfl
    unfold Registry.Update
    rw [hv, if_pos hl2]
  · intro hv hl
    have hl2 : ¬ (lookupMap r name).isNone = true := by
      cases hc : lookupMap r name with
      | some v => simp
      | none => rw [hc] at hl; exact absurd hl (by simp)
    have hupd : Registry.Update r name cmd =
        (insertMap (if name ≠ cmd.name then eraseMap r name else r)
          cmd.name cmd, none) := by
      unfold Registry.Update
      rw [hv, if_neg hl2]
    rw [hupd]
    refine ⟨rfl, ?_, ?_, ?_⟩
    · rw [lookupMap_insertMap]
      simp
    · intro hne
      rw [lookupMap_insertMap, if_neg (fun hc => hne hc.symm), if_pos hne,
        lookupMap_eraseMap, if_pos rfl]
    · intro k hk1 hk2
      rw [lookupMap_insertMap, if_neg (fun hc => hk2 hc.symm)]
      by_cases hne : name ≠ cmd.name
      · rw [if_pos hne, lookupMap_eraseMap, if_neg (fun hc => hk1 hc.symm)]
      · rw [if_neg hne]

/-- C5 witness: renaming `hello` to `help` succeeds and silently
overwrites the existing third entry named `help`. -/
theorem registry_update_witness :
    (Registry.Update [("hello", cmdEx), ("help", helpCmd)] "hello"
      (Command.mk "help" "/bin/x" [] "" false "")).2 = none ∧
    lookupMap (Registry.Update [("hello", cmdEx), ("help", helpCmd)] "hello"
      (Command.mk "help" "/bin/x" [] "" false "")).1 "help" =
      some (Command.mk "help" "/bin/x" [] "" false "") ∧
    lookupMap (Registry.Update [("hello", cmdEx), ("help", helpCmd)] "hello"
      (Command.mk "help" "/bin/x" [] "" false "")).1 "hello" = none := by
  have h := (registry_update_spec [("hello", cmdEx), ("help", helpCmd)]
    "hello" (Command.mk "help" "/bin/x" [] "" false "")).2.2.1
    (by decide) (by decide)
  exact ⟨h.1, h.2.1, h.2.2.1 (by decide)⟩

/-- C3: for a `tools/call`, a built-in name always routes to the built-in
handler, even when a dynamic entry with the identical name exists; only
non-built-in names fall through to the catalog, and a catalog miss yields
the `-32602` unknown-tool protocol error. -/
theorem dispatch_builtin_shadow (r : Registry) (name : String) :
    (name ∈ builtinNames → dispatchToolsCall r name = .builtin name) ∧
    (∀ cmd, lookupMap r name = some cmd → name ∈ builtinNames →
      dispatchToolsCall r name = .builtin name) ∧
    (name ∉ builtinNames → ∀ cmd, lookupMap r name = some cmd →
      dispatchToolsCall r name = .dynamic cmd) ∧
    (name ∉ builtinNames → lookupMap r name = none →
      dispatchToolsCall r name =
        .protocolError (-32602) ("Unknown tool: " ++ name)) := by
  refine ⟨?_, ?_, ?_, ?_⟩
  · intro h
    unfold dispatchToolsCall
    rw [if_pos h]
  · intro cmd _ h
    unfold dispatchToolsCall
    rw [if_pos h]
  · intro h cmd hl
    unfold dispatchToolsCall Registry.Get
    rw [if_neg h, hl]
  · intro h hl
    unfold dispatchToolsCall Registry.Get
    rw [if_neg h, hl]

/-- C3 witness: a catalog entry named `help` is registrable, yet dispatch
of `help` routes to the built-in; an unknown name yields the protocol
error. -/
theorem dispatch_builtin_shadow_witness :
    (Registry.Add ([] : Registry) helpCmd).2 = none ∧
    dispatchToolsCall [("help", helpCmd)] "help" = .builtin "help" ∧
    dispatchToolsCall [("help", helpCmd)] "other" =
      .protocolError (-32602) "Unknown tool: other" := by
  refine ⟨by decide, ?_, ?_⟩
  · exact (dispatch_builtin_shadow [("help", helpCmd)] "help").2.1 helpCmd
      (by decide) (by decide)
  · exact ((dispatch_builtin_shadow [("help", helpCmd)] "other").2.2.2
      (by decide) (by decide)).trans (by decide)

/-- C8: a snapshot loaded back into a fresh catalog has identical contents
at every key (round-trip); writing into the snapshot value is visible in
the snapshot but the live contents looked up afterwards are the original
ones everywhere else, the aliasing-free behaviour `maps.Copy` provides
(heap aliasing itself has no observable counterpart in a pure model). -/
theorem snapshot_roundtrip (r : Registry) (hnd : NodupKeys r) (k : String)
    (v : Command) :
    (∀ key, lookupMap (Registry.Load (Registry.Snapshot r)) key =
      lookupMap r key) ∧
    lookupMap (insertMap (Registry.Snapshot r) k v) k = some v ∧
    (∀ key, key ≠ k →
      lookupMap (insertMap (Registry.Snapshot r) k v) key =
        lookupMap r key) := by
  refine ⟨fun key => lookupMap_load_snapshot r key hnd, ?_, ?_⟩
  · rw [lookupMap_insertMap]
    simp
  · intro key hkey
    rw [lookupMap_insertMap, if_neg (fun hc => hkey hc.symm),
      lookupMap_snapshot r key hnd]

/-- C8 witness: round-trip and snapshot-mutation independence on a
one-entry catalog. -/
theorem snapshot_roundtrip_witness :
    lookupMap (Registry.Load (Registry.Snapshot [("hello", cmdEx)]))
      "hello" = some cmdEx ∧
    lookupMap (insertMap (Registry.Snapshot [("hello", cmdEx)]) "bye"
      helpCmd) "hello" = some cmdEx := by
  have h := snapshot_roundtrip [("hello", cmdEx)] (by decide) "bye" helpCmd
  exact ⟨(h.1 "hello").trans (by decide),
    (h.2.2 "hello" (by decide)).trans (by decide)⟩

/-- C9: starting from the empty registry, after any sequence of Add,
Remove and Update calls every stored entry is keyed by its own name and
satisfies all validation rules: identity pattern, non-empty executable,
allowed parameter types, and timeout format when non-empty. -/
theorem registry_invariant (acts : List RegAction) (kv : String × Command)
    (h : kv ∈ applyActions [] acts) :
    kv.1 = kv.2.name ∧ validName kv.2.name = true ∧ kv.2.exec ≠ "" ∧
      (∀ a ∈ kv.2.args, validType a.2.type = true) ∧
      (kv.2.timeout = "" ∨ validTimeoutString kv.2.timeout = true) := by
  have hinv := applyActions_inv acts [] (by intro kv2 hkv2; simp at hkv2)
    kv h
  obtain ⟨h1, h2⟩ := hinv
  obtain ⟨h3, h4, h5, h6⟩ := (validateCommand_eq_none_iff kv.2).mp h2
  exact ⟨h1, h3, h4, h5, h6⟩

/-- C9 witness: after an add, a failed duplicate add, an update and a
failed remove, the surviving entry satisfies the invariant. -/
theorem registry_invariant_witness :
    ("hello", cmdEx) ∈
      applyActions [] [RegAction.add cmdEx, RegAction.remove "nope"] ∧
    validName cmdEx.name = true ∧ cmdEx.exec ≠ "" := by
  have h := registry_invariant [RegAction.add cmdEx, RegAction.remove "nope"]
    ("hello", cmdEx) (by decide)
  exact ⟨by decide, h.2.1, h.2.2.1⟩

/-- C1: in atomic mode, when operation k is the first to fail the catalog
after the batch equals the catalog before it at every key (full rollback),
the reported failing index equals k, the reported results cover operations
0..k, and no persistence call is made; when every operation succeeds,
persistence runs exactly once and all per-operation results report
success. -/
theorem batchAtomic_rollback (r : Registry) (ops : List BatchOperation)
    (hnd : NodupKeys r) :
    (∀ k e, firstFail r ops = some (k, e) →
      (batchAtomic r ops).persists = 0 ∧
      (∀ key, lookupMap (batchAtomic r ops).registry key = lookupMap r key) ∧
      ∃ rs, (batchAtomic r ops).outcome = .rolledBack k e rs ∧
        rs.length = k + 1) ∧
    (firstFail r ops = none →
      (batchAtomic r ops).persists = 1 ∧
      ∃ rs, (batchAtomic r ops).outcome = .allOk rs ∧
        rs.length = ops.length ∧ ∀ x ∈ rs, x.success = true) := by
  constructor
  · intro k e h
    obtain ⟨rs, heq, hlen⟩ :=
      batchAtomicGo_fail ops (Registry.Snapshot r) r 0 [] k e h
    have hba : batchAtomic r ops =
      ⟨Registry.Load (Registry.Snapshot r), 0, .rolledBack k e rs⟩ := heq
    refine ⟨by rw [hba], ?_, rs, by rw [hba], ?_⟩
    · intro key
      rw [hba]
      exact lookupMap_load_snapshot r key hnd
    · rw [hlen]
      simp
  · intro h
    obtain ⟨r2, rs, heq, hlen, hsucc⟩ :=
      batchAtomicGo_ok ops (Registry.Snapshot r) r 0 [] h
    have hba : batchAtomic r ops = ⟨r2, 1, .allOk ([] ++ rs)⟩ := heq
    refine ⟨by rw [hba], rs, ?_, hlen, hsucc⟩
    rw [hba]
    simp

/-- C1 witness: an atomic batch of three adds whose second operation has
an invalid timeout rolls back completely, reports failing index 1 with the
two results so far, and never persists. -/
theorem batchAtomic_rollback_witness :
    (batchAtomic [] [opAdd1, opAdd2, opAdd3]).persists = 0 ∧
    lookupMap (batchAtomic [] [opAdd1, opAdd2, opAdd3]).registry "c1" =
      none ∧
    ∃ rs, (batchAtomic [] [opAdd1, opAdd2, opAdd3]).outcome =
      .rolledBack 1 (.reg (.invalid (.timeoutInvalid "c2"))) rs ∧
      rs.length = 2 := by
  have h := (batchAtomic_rollback [] [opAdd1, opAdd2, opAdd3]
    (by decide)).1 1 (.reg (.invalid (.timeoutInvalid "c2"))) (by decide)
  exact ⟨h.1, (h.2.1 "c1").trans (by decide), h.2.2⟩

/-- C4: in partial mode a per-operation result is returned for all N
operations, overall success is reported exactly when all results report
success, persistence runs once when at least one operation succeeded and
not at all otherwise, the final catalog is the sequential application in
which failures leave the contents unchanged, and a failing operation is
independent of the rest: erasing it from the batch yields the same final
catalog. -/
theorem batchPartial_spec (r : Registry) (ops : List BatchOperation) :
    (batchPartialMode r ops).results.length = ops.length ∧
    (batchPartialMode r ops).success =
      ((batchPartialMode r ops).results.all fun x => x.success) ∧
    (batchPartialMode r ops).persists =
      (if ((batchPartialMode r ops).results.any fun x => x.success) = true
        then 1 else 0) ∧
    (batchPartialMode r ops).registry = applyOpsLoose r ops ∧
    (∀ i res, (batchPartialMode r ops).results[i]? = some res →
      res.success = false →
      (batchPartialMode r ops).registry =
        applyOpsLoose r (ops.eraseIdx i)) := by
  have hbp : batchPartialMode r ops =
      ⟨applyOpsLoose r ops, if 0 + countOk r ops > 0 then 1 else 0,
        (0 + countOk r ops) ==
          (List.length ([] : List BatchResult) + ops.length),
        [] ++ partialResults r 0 ops⟩ :=
    batchPartialGo_eq ops r 0 [] 0
  simp only [Nat.zero_add, List.length_nil, List.nil_append] at hbp
  rw [hbp]
  refine ⟨partialResults_length ops r 0, ?_, ?_, rfl, ?_⟩
  · rw [partialResults_all ops r 0]
  · rw [partialResults_any ops r 0]
    by_cases hc : 0 < countOk r ops
    · simp [hc]
    · simp [hc]
  · intro i res hres hfail
    exact partialResults_erase ops r 0 i res hres hfail

/-- C4 witness: the same three operations run non-atomically apply the
first and third adds despite the second failing, return three results, and
end with the catalog one would get by erasing the failing operation. -/
theorem batchPartial_witness :
    (batchPartialMode [] [opAdd1, opAdd2, opAdd3]).results.length = 3 ∧
    (batchPartialMode [] [opAdd1, opAdd2, opAdd3]).registry =
      applyOpsLoose []
        (([opAdd1, opAdd2, opAdd3] : List BatchOperation).eraseIdx 1) := by
  have h := batchPartial_spec [] [opAdd1, opAdd2, opAdd3]
  refine ⟨by rw [h.1]; rfl, ?_⟩
  exact h.2.2.2.2 1
    ⟨1, "add_command", "c2", false, some (.reg (.invalid (.timeoutInvalid "c2")))⟩
    (by decide) (by decide)

/-- C6 counterexample: a definition with a present but malformed timeout
string does not run with the 120-second default; `Execute` rejects it with
an invalid-timeout error before any subprocess deadline exists. -/
theorem execute_timeout_cx :
    cxTimeoutCmd.timeout = "abc" ∧ validTimeoutString "abc" = false ∧
    ExecutePlan cxTimeoutCmd [] = .error (.invalidTimeout .badNumber) := by
  refine ⟨rfl, by decide, rfl⟩

/-- C6 amended: when the timeout string is absent the deadline is 120
seconds; when present and parseable the deadline is the parsed duration;
when present and malformed, `Execute` fails with an invalid-timeout error
and runs nothing; a definition created by `parseCommand` without a timeout
receives the `"120s"` default at creation. -/
theorem execute_timeout_amended (cmd : Command) (args : List (String × Value))
    (hreq : firstMissingRequired cmd args = none) :
    (cmd.timeout = "" →
      ExecutePlan cmd args = .ok ⟨buildArgs cmd args, defaultTimeoutNs⟩) ∧
    (∀ d, cmd.timeout ≠ "" → parseTimeout cmd.timeout = .ok d →
      ExecutePlan cmd args = .ok ⟨buildArgs cmd args, d⟩) ∧
    (∀ e, cmd.timeout ≠ "" → parseTimeout cmd.timeout = .error e →
      ExecutePlan cmd args = .error (.invalidTimeout e)) ∧
    (∀ m cmd2, lookupMap m "timeout" = none → parseCommand m = .ok cmd2 →
      cmd2.timeout = "120s") := by
  refine ⟨?_, ?_, ?_, ?_⟩
  · intro ht
    unfold ExecutePlan
    rw [hreq, if_pos ht]
  · intro d ht hp
    unfold ExecutePlan
    rw [hreq, if_neg ht, hp]
  · intro e ht hp
    unfold ExecutePlan
    rw [hreq, if_neg ht, hp]
  · intro m cmd2 hl hp
    unfold parseCommand at hp
    rw [hl] at hp
    dsimp only at hp
    cases hargs : lookupMap m "args" with
    | none =>
      rw [hargs] at hp
      injection hp with h3
      rw [← h3]
    | some v =>
      cases v with
      | obj argsRaw =>
        rw [hargs] at hp
        dsimp only at hp
        cases hps : parseArgSpecs argsRaw with
        | ok specs =>
          rw [hps] at hp
          injection hp with h3
          rw [← h3]
        | error e2 =>
          rw [hps] at hp
          exact Except.noConfusion hp
      | str s =>
        rw [hargs] at hp
        injection hp with h3
        rw [← h3]
      | num q =>
        rw [hargs] at hp
        injection hp with h3
        rw [← h3]
      | bool b =>
        rw [hargs] at hp
        injection hp with h3
        rw [← h3]
      | null =>
        rw [hargs] at hp
        injection hp with h3
        rw [← h3]

/-- C6 amended witness: a well-formed `30s` timeout yields a 30-second
deadline; creation without a timeout defaults to `120s`. -/
theorem execute_timeout_amended_witness :
    ExecutePlan (Command.mk "t1" "/bin/true" [] "" false "30s") [] =
      .ok ⟨[], 30000000000⟩ ∧
    (∀ cmd2, parseCommand [("name", .str "t2"), ("exec", .str "/bin/x")] =
      .ok cmd2 → cmd2.timeout = "120s") := by
  have h := execute_timeout_amended
    (Command.mk "t1" "/bin/true" [] "" false "30s") [] (by decide)
  constructor
  · exact h.2.1 30000000000 (by decide) rfl
  · intro cmd2 hp
    exact h.2.2.2 [("name", .str "t2"), ("exec", .str "/bin/x")] cmd2
      rfl hp

/-- C7: `Execute` fails with a missing-argument error whenever some
required parameter is absent from the supplied arguments; any plan it
produces carries exactly the supplied arguments whose names are declared
parameters, in order, stringified (undeclared arguments silently dropped);
booleans render as `true`/`false`, integral numbers without a decimal
point, non-integral ones at minimal precision. The samples: `3` is
`6755399441055744 * 2^-51` and `-3` its negation; `0.5` is
`2^52 * 2^-53`; `5404319552844595 * 2^-54` is the double nearest `0.3`
and renders as the shortest round-trip string `0.3`, not its 54-digit
exact expansion; `2^52 * 2^11 = 2^63` is integral but outside the int64
range, so it takes the `FormatFloat` path and still renders without a
decimal point. -/
theorem execute_args_spec (cmd : Command) (args : List (String × Value)) :
    (∀ an sp, (an, sp) ∈ cmd.args → sp.required = true →
      lookupMap args an = none →
      ∃ an2 sp2, ExecutePlan cmd args = .error (.missingArg an2) ∧
        (an2, sp2) ∈ cmd.args ∧ sp2.required = true ∧
        lookupMap args an2 = none) ∧
    (∀ p, ExecutePlan cmd args = .ok p →
      p.execArgs = (args.filter fun kv =>
        decide (kv.1 ∈ cmd.args.map Prod.fst)).map
          fun kv => argToString kv.2) ∧
    (argToString (.bool true) = "true" ∧ argToString (.bool false) = "false" ∧
      argToString (.num ⟨false, 6755399441055744, -51⟩) = "3" ∧
      argToString (.num ⟨true, 6755399441055744, -51⟩) = "-3" ∧
      argToString (.num ⟨false, 4503599627370496, -53⟩) = "0.5" ∧
      argToString (.num ⟨false, 5404319552844595, -54⟩) = "0.3" ∧
      argToString (.num ⟨false, 4503599627370496, 11⟩) =
        "9223372036854776000" ∧
      argToString (.str "hi") = "hi") := by
  refine ⟨?_, ?_, by decide, by decide, by decide, by decide, by decide,
    by decide, by decide, by decide⟩
  · intro an sp hmem hreq hnone
    cases hf : firstMissingRequired cmd args with
    | none =>
      exfalso
      have := findReq_none args cmd.args hf an sp hmem hreq
      rw [hnone] at this
      exact Bool.noConfusion this
    | some an2 =>
      obtain ⟨sp2, hmem2, hreq2, hnone2⟩ := findReq_some args cmd.args an2 hf
      refine ⟨an2, sp2, ?_, hmem2, hreq2, hnone2⟩
      unfold ExecutePlan
      rw [hf]
  · intro p hp
    unfold ExecutePlan at hp
    cases hf : firstMissingRequired cmd args with
    | some an =>
      rw [hf] at hp
      exact Except.noConfusion hp
    | none =>
      rw [hf] at hp
      dsimp only at hp
      by_cases ht : cmd.timeout = ""
      · rw [if_pos ht] at hp
        injection hp with h3
        rw [← h3]
        exact buildArgs_eq cmd args
      · rw [if_neg ht] at hp
        cases hpt : parseTimeout cmd.timeout with
        | error e =>
          rw [hpt] at hp
          exact Except.noConfusion hp
        | ok t =>
          rw [hpt] at hp
          injection hp with h3
          rw [← h3]
          exact buildArgs_eq cmd args

/-- C7 witness: with one required parameter supplied together with an
undeclared argument, the plan keeps only the declared one; omitting the
required parameter yields the missing-argument error. -/
theorem execute_args_witness :
    (∃ p, ExecutePlan cmdEx [("msg", .str "hi"), ("junk", .bool true)] =
        .ok p ∧ p.execArgs = ["hi"]) ∧
    (∃ an2 sp2, ExecutePlan cmdEx [] = .error (.missingArg an2) ∧
      (an2, sp2) ∈ cmdEx.args ∧ sp2.required = true ∧
      lookupMap ([] : List (String × Value)) an2 = none) := by
  have h := execute_args_spec cmdEx [("msg", .str "hi"), ("junk", .bool true)]
  constructor
  · refine ⟨⟨["hi"], 30000000000⟩, rfl, ?_⟩
    exact (h.2.1 ⟨["hi"], 30000000000⟩ rfl).trans (by decide)
  · have h2 := execute_args_spec cmdEx []
    exact h2.1 "msg" ⟨"string", "Message", true⟩ (by decide) (by decide) rfl

/-- C10 counterexample: the timeout string `9223372036854775808s` (2^63
seconds) passes the catalog validator, yet `parseTimeout` fails on it —
`strconv.Atoi` overflows 64-bit — so the invalid-timeout branch of
`Execute` is reachable for a catalog-validated command. -/
theorem timeout_validator_cx :
    validTimeoutString "9223372036854775808s" = true ∧
    parseTimeout "9223372036854775808s" = .error .badNumber ∧
    validateCommand hugeTimeoutCmd = none ∧
    ExecutePlan hugeTimeoutCmd [] = .error (.invalidTimeout .badNumber) := by
  refine ⟨by decide, rfl, by decide, rfl⟩

/-- C10 amended: for every validator-accepted timeout string whose denoted
duration fits in a signed 64-bit nanosecond count, `parseTimeout` succeeds
with exactly that duration, and the invalid-timeout branch of `Execute` is
unreachable for a command carrying such a string. -/
theorem timeout_validator_amended (s : String) (d : Int)
    (h1 : timeoutNanos s = some d) (h2 : d < 9223372036854775808) :
    parseTimeout s = .ok d ∧
    (∀ cmd args e, cmd.timeout = s →
      ExecutePlan cmd args ≠ .error (.invalidTimeout e)) := by
  unfold timeoutNanos at h1
  by_cases hv : validTimeoutString s = true
  · rw [if_pos hv] at h1
    obtain ⟨hne, hdig, hunit⟩ := validTimeoutString_parts s hv
    rw [Option.map_eq_some'] at h1
    obtain ⟨u, hu, hd⟩ := h1
    have hupos : 1 ≤ u := by
      rcases hunit with h | h | h <;> rw [h] at hu <;>
        simp [unitNanos] at hu <;> omega
    have hnn : (0 : Int) ≤ (digitsToNat s.data.dropLast : Int) :=
      Int.ofNat_nonneg _
    have hb : (digitsToNat s.data.dropLast : Int) ≤ intMax := by
      have hle : (digitsToNat s.data.dropLast : Int) ≤
          (digitsToNat s.data.dropLast : Int) * u := by
        calc (digitsToNat s.data.dropLast : Int) =
            (digitsToNat s.data.dropLast : Int) * 1 := (mul_one _).symm
        _ ≤ (digitsToNat s.data.dropLast : Int) * u :=
            mul_le_mul_of_nonneg_left hupos hnn
      rw [hd] at hle
      unfold intMax
      omega
    have hw1 : 0 ≤ (digitsToNat s.data.dropLast : Int) * u :=
      mul_nonneg hnn (by omega)
    have hw2 : (digitsToNat s.data.dropLast : Int) * u <
        9223372036854775808 := by
      rw [hd]
      exact h2
    have hpt : parseTimeout s =
        .ok ((digitsToNat s.data.dropLast : Int) * u) :=
      parseTimeout_ok s u hne hdig hu hb hw1 hw2
    rw [hd] at hpt
    refine ⟨hpt, ?_⟩
    intro cmd args e hts hcontra
    unfold ExecutePlan at hcontra
    cases hf : firstMissingRequired cmd args with
    | some an =>
      rw [hf] at hcontra
      have h3 : (Except.error (ExecErr.missingArg an) :
          Except ExecErr ExecPlan) = .error (.invalidTimeout e) := hcontra
      have h4 : ExecErr.missingArg an = ExecErr.invalidTimeout e := by
        injection h3
      exact ExecErr.noConfusion h4
    | none =>
      rw [hf] at hcontra
      dsimp only at hcontra
      by_cases ht : cmd.timeout = ""
      · rw [if_pos ht] at hcontra
        exact Except.noConfusion hcontra
      · rw [if_neg ht] at hcontra
        rw [hts, hpt] at hcontra
        exact Except.noConfusion hcontra
  · rw [if_neg hv] at h1
    exact Option.noConfusion h1

/-- C10 amended witness: `45m` is validator-accepted and parses to 45
minutes in nanoseconds. -/
theorem timeout_validator_amended_witness :
    parseTimeout "45m" = .ok 2700000000000 := by
  exact (timeout_validator_amended "45m" 2700000000000 (by decide)
    (by decide)).1
